import Mathlib

/-!
Verification of the expression-evaluation core of the `vector` VRL compiler:
the conditional node (`src/lib/vrl/compiler/src/expression/if_statement.rs`)
and the variable-reference node
(`src/lib/vrl/compiler/src/expression/variable.rs`).

The Rust code is shallowly embedded:
  * `Value` is the runtime value domain (the fragment the two nodes touch).
  * `Resolved` is `Result<Value, ExpressionError>`, with faults as strings.
  * Scalar resolution returns `Option Resolved`, where `none` models a Rust
    panic (`expect` on a non-boolean predicate, `unreachable!`, index out of
    bounds); `some` is normal completion with a value-or-fault.
  * Batch resolution mutates a `BatchContext`; it is modelled as a pure
    function returning the updated context, again in `Option` for panics.
  * The sub-expression language (`Predicate`/`Block` wrappers, literal
    leaves) is not part of the sampled source; leaves are modelled from the
    spec as an always-succeeding literal and an always-faulting node, each
    writing its result into every selected resolution slot in batch mode.
-/

namespace Vrl

/-- The runtime value domain (the fragment relevant to these nodes). -/
inductive Value where
  | null
  | boolean (b : Bool)
  | integer (i : Int)
  | string (s : String)
  deriving DecidableEq, Repr

/-- `Resolved = Result<Value, ExpressionError>`; faults carried as strings. -/
abbrev Resolved := Except String Value

instance : DecidableEq Resolved := fun a b =>
  match a, b with
  | .ok x, .ok y => decidable_of_iff (x = y) (by simp)
  | .error x, .error y => decidable_of_iff (x = y) (by simp)
  | .ok _, .error _ => isFalse (by simp)
  | .error _, .ok _ => isFalse (by simp)

/-- The per-row live binding state (`state::Runtime`): identifier ↦ value. -/
structure Runtime where
  bindings : List (String × Value)
  deriving DecidableEq, Repr

/-- `Runtime::variable`: look up an identifier in the live binding state.
(`variable` is a Lean keyword, hence the longer name.) -/
def Runtime.lookupVariable (r : Runtime) (ident : String) : Option Value :=
  (r.bindings.find? (fun p => p.1 == ident)).map (·.2)

/-- Scalar evaluation context; the fragment used here carries the live state. -/
structure Context where
  state : Runtime
  deriving DecidableEq, Repr

/-- Batch evaluation context: per-row binding states and parallel per-row
resolution slots (`resolved_values`). -/
structure BatchContext where
  states : List Runtime
  resolved_values : List Resolved
  deriving DecidableEq, Repr

/-- The `Variable` expression node: identifier plus the optional constant
snapshot captured at construction time. -/
structure Variable where
  ident : String
  value : Option Value
  deriving DecidableEq, Repr

/-- The expression language: the two sampled nodes plus two leaf kinds.
`value`/`fault` are modelled from the spec (literal leaves / a faulting
node); `ifStatement` mirrors the `IfStatement` struct (predicate,
consequent, optional alternative), with the scratch selection vectors kept
out of the tree (they are overwritten on every call, see `ifPartition`). -/
inductive Expr where
  | value (v : Value)
  | fault (msg : String)
  | var (node : Variable)
  | ifStatement (predicate : Expr) (consequent : Expr) (alternative : Option Expr)

/-! Scalar resolution, one row at a time.

`IfStatement::resolve`: resolve the predicate, propagate its fault (`?`),
`expect` it to be boolean (panic = `none` otherwise); on `true` resolve the
consequent, on `false` resolve the alternative if present, else `Ok(Null)`.

`Variable::resolve`: look up the identifier in the live state, defaulting
to `Ok(Value::Null)`; infallible. -/
mutual

/-- Scalar resolution; see the comment above this mutual block. -/
def resolve : Expr → Context → Option Resolved
  | .value v, _ => some (.ok v)
  | .fault msg, _ => some (.error msg)
  | .var node, ctx => some (.ok ((ctx.state.lookupVariable node.ident).getD .null))
  | .ifStatement p c a, ctx =>
    match resolve p ctx with
    | none => none
    | some (.error msg) => some (.error msg)
    | some (.ok pv) =>
      match pv with
      | .boolean true => resolve c ctx
      | .boolean false => resolveAlt a ctx
      | _ => none

/-- The `false` arm of `IfStatement::resolve`:
`self.alternative.as_ref().map_or(Ok(Value::Null), |block| block.resolve(ctx))`. -/
def resolveAlt : Option Expr → Context → Option Resolved
  | some alt, ctx => resolve alt ctx
  | none, _ => some (.ok Value.null)

end

/-- `Vec::swap i j` on a list; both call sites keep `i`, `j` in range. -/
def swapList (l : List Nat) (i j : Nat) : List Nat :=
  match l[i]?, l[j]? with
  | some a, some b => (l.set i b).set j a
  | _, _ => l

/-- The first in-place scan of `IfStatement::resolve_batch` (lines 57–72):
walk the copied selection vector left to right and swap every index whose
resolution slot `is_err()` out to the tail, shrinking the live window.
`none` models the panic of `resolved_values[index]` indexing out of range.
The loop's decreasing measure `len - i` is made explicit as a structural
`fuel` argument; callers pass `fuel = len - i`, under which the `fuel = 0`
case coincides with the loop's `i >= len` break. -/
def faultScan (resolved : List Resolved) :
    Nat → List Nat → Nat → Nat → Option (List Nat × Nat)
  | 0, v, _, len => some (v, len)
  | fuel + 1, v, i, len =>
    if i ≥ len then some (v, len)
    else
      match v[i]? with
      | none => none
      | some index =>
        match resolved[index]? with
        | none => none
        | some (.error _) => faultScan resolved fuel (swapList v i (len - 1)) i (len - 1)
        | some (.ok _) => faultScan resolved fuel v (i + 1) len

/-- The second in-place scan (lines 76–95): among the surviving indices,
read the already-recorded boolean predicate result; `true` stays in the
window, `false` is swapped to the tail and pushed onto
`selection_vector_else`. Any slot that is not `Some(Ok(Boolean _))` is the
`unreachable!` panic, modelled as `none`. Fuel as in `faultScan`. -/
def boolScan (resolved : List Resolved) :
    Nat → List Nat → List Nat → Nat → Nat → Option (List Nat × Nat × List Nat)
  | 0, v, acc, _, len => some (v, len, acc)
  | fuel + 1, v, acc, i, len =>
    if i ≥ len then some (v, len, acc)
    else
      match v[i]? with
      | none => none
      | some index =>
        match resolved[index]? with
        | some (.ok (.boolean true)) => boolScan resolved fuel v acc (i + 1) len
        | some (.ok (.boolean false)) =>
          boolScan resolved fuel (swapList v i (len - 1)) (acc ++ [index]) i (len - 1)
        | _ => none

/-- Lines 54–96 of `IfStatement::resolve_batch`: copy the selection vector
into `selection_vector_if`, filter out faulted rows, then split the
remainder by recorded boolean into (`selection_vector_if`,
`selection_vector_else`), truncating after each scan. -/
def ifPartition (resolved : List Resolved) (selection_vector : List Nat) :
    Option (List Nat × List Nat) :=
  match faultScan resolved selection_vector.length selection_vector 0
      selection_vector.length with
  | none => none
  | some (v1, len1) =>
    match boolScan resolved (v1.take len1).length (v1.take len1) [] 0
        (v1.take len1).length with
    | none => none
    | some (v2, len2, vElse) => some (v2.take len2, vElse)

/-- Write one resolved value into every selected slot; used by the modelled
literal/fault leaves and by the no-alternative null loop (lines 103–105).
`none` models the panic of slot assignment out of range. -/
def writeAll (resolved : List Resolved) (sel : List Nat) (r : Resolved) :
    Option (List Resolved) :=
  match sel with
  | [] => some resolved
  | index :: rest =>
    if index < resolved.length then writeAll (resolved.set index r) rest r
    else none

/-- The loop of `Variable::resolve_batch` (lines 55–61): for every selected
index, `resolved_values[index] = Ok(states[index].variable(ident)
.unwrap_or(Null))`. -/
def variableWriteLoop (ident : String) (states : List Runtime)
    (resolved : List Resolved) (sel : List Nat) : Option (List Resolved) :=
  match sel with
  | [] => some resolved
  | index :: rest =>
    match states[index]? with
    | none => none
    | some st =>
      if index < resolved.length then
        variableWriteLoop ident states
          (resolved.set index (.ok ((st.lookupVariable ident).getD .null))) rest
      else none

/-! Batch resolution, mutating the shared per-row resolution slots.

`IfStatement::resolve_batch` (lines 51–107): batch-resolve the predicate
over the whole selection, partition the selection (`ifPartition`), delegate
the true subset to the consequent and the false subset to the alternative,
or directly write `Ok(Null)` into each false-subset slot when there is no
alternative.

`Variable::resolve_batch` (lines 54–62): `variableWriteLoop`, no
partitioning. The `value`/`fault` leaves are modelled from the spec: they
write their result into every selected slot. -/
mutual

/-- Batch resolution; see the comment above this mutual block. -/
def resolve_batch : Expr → BatchContext → List Nat → Option BatchContext
  | .value v, ctx, sel =>
    (writeAll ctx.resolved_values sel (.ok v)).map (fun r => ⟨ctx.states, r⟩)
  | .fault msg, ctx, sel =>
    (writeAll ctx.resolved_values sel (.error msg)).map (fun r => ⟨ctx.states, r⟩)
  | .var node, ctx, sel =>
    (variableWriteLoop node.ident ctx.states ctx.resolved_values sel).map
      (fun r => ⟨ctx.states, r⟩)
  | .ifStatement p c a, ctx, sel =>
    match resolve_batch p ctx sel with
    | none => none
    | some ctx1 =>
      match ifPartition ctx1.resolved_values sel with
      | none => none
      | some (selIf, selElse) =>
        match resolve_batch c ctx1 selIf with
        | none => none
        | some ctx2 => resolve_batchAlt a ctx2 selElse

/-- Lines 100–106: delegate the false subset to the alternative if present,
otherwise directly write `Ok(Value::Null)` into each of its slots. -/
def resolve_batchAlt : Option Expr → BatchContext → List Nat → Option BatchContext
  | some alt, ctx, selElse => resolve_batch alt ctx selElse
  | none, ctx, selElse =>
    (writeAll ctx.resolved_values selElse (.ok Value.null)).map
      (fun r => ⟨ctx.states, r⟩)

end

/-! ### Classifiers for recorded predicate results -/

/-- The recorded slot of row `j` holds a success (`is_err()` false). -/
def okQ (resolved : List Resolved) (j : Nat) : Bool :=
  match resolved[j]? with
  | some (.ok _) => true
  | _ => false

/-- The recorded slot of row `j` holds a fault (`is_err()` true). -/
def errQ (resolved : List Resolved) (j : Nat) : Bool :=
  match resolved[j]? with
  | some (.error _) => true
  | _ => false

/-- The recorded slot of row `j` holds `Ok(Boolean(true))`. -/
def trueQ (resolved : List Resolved) (j : Nat) : Bool :=
  match resolved[j]? with
  | some (.ok (.boolean true)) => true
  | _ => false

/-- The recorded slot of row `j` holds `Ok(Boolean(false))`. -/
def falseQ (resolved : List Resolved) (j : Nat) : Bool :=
  match resolved[j]? with
  | some (.ok (.boolean false)) => true
  | _ => false

/-! Structural size of an expression, used as the induction measure for
`resolve_batch` proofs (the tree recurses through `Option Expr`). -/
mutual

/-- Structural size of an expression. -/
def esize : Expr → Nat
  | .value _ => 1
  | .fault _ => 1
  | .var _ => 1
  | .ifStatement p c a => 1 + esize p + esize c + esizeAlt a

def esizeAlt : Option Expr → Nat
  | some alt => esize alt
  | none => 0

end

/-! ### Display rendering -/

/-- Modelled from the spec: rendering of the leaf values (the literal
node's `Display` is not part of the sampled source). -/
def renderValue : Value → String
  | .null => "null"
  | .boolean true => "true"
  | .boolean false => "false"
  | .integer i => toString i
  | .string s => s

mutual

/-- `fmt::Display`. For `IfStatement` (lines 119–133): `"if "`, the
predicate, `" "`, the consequent, then — only when an alternative is
present — `" else"` directly followed by the rendered alternative. For
`Variable` (lines 72–76): the identifier. Leaves are spec-modelled. -/
def render : Expr → String
  | .value v => renderValue v
  | .fault msg => msg
  | .var node => node.ident
  | .ifStatement p c a => "if " ++ render p ++ " " ++ render c ++ renderAlt a

/-- The optional `else` suffix of `IfStatement`'s `Display` (lines 126–129). -/
def renderAlt : Option Expr → String
  | some alt => " else" ++ render alt
  | none => ""

end

/-! ### Static type inference -/

/-- The static kind domain (the fragment relevant here). -/
inductive Kind where
  | null
  | boolean
  | integer
  | string
  deriving DecidableEq, Repr

/-- Modelled from the spec: `TypeDef` is a static over-approximation, a set
of possible kinds plus fallibility (`TypeDef` itself is not under src/). -/
structure TypeDef where
  kinds : List Kind
  fallible : Bool
  deriving DecidableEq, Repr

/-- Modelled from the spec: `merge_deep` unions the possibility sets. -/
def TypeDef.merge_deep (t u : TypeDef) : TypeDef :=
  ⟨t.kinds ++ u.kinds, t.fallible || u.fallible⟩

/-- Modelled from the spec: `add_null` adds the "may be null" possibility. -/
def TypeDef.add_null (t : TypeDef) : TypeDef :=
  ⟨t.kinds ++ [.null], t.fallible⟩

/-- Modelled from the spec: `TypeDef::null()`. -/
def TypeDef.null : TypeDef := ⟨[.null], true⟩

/-- Modelled from the spec: `.infallible()` clears fallibility. -/
def TypeDef.infallible (t : TypeDef) : TypeDef := ⟨t.kinds, false⟩

/-- The kind of a runtime value (for the modelled literal's type). -/
def kindOf : Value → Kind
  | .null => .null
  | .boolean _ => .boolean
  | .integer _ => .integer
  | .string _ => .string

/-- The compile-time record for one identifier in the local environment:
a static type descriptor and an optional known constant value. -/
structure LocalVariable where
  type_def : TypeDef
  value : Option Value
  deriving DecidableEq, Repr

/-- `state::LocalEnv`: the lexical environment mapping identifiers to
`LocalVariable` records (modelled from the spec; only its `variable` and
`variable_idents` queries are used by the sampled source). -/
structure LocalEnv where
  bindings : List (String × LocalVariable)
  deriving DecidableEq, Repr

/-- `LocalEnv::variable` (`variable` is a Lean keyword). -/
def LocalEnv.lookupVariable (env : LocalEnv) (ident : String) :
    Option LocalVariable :=
  (env.bindings.find? (fun p => p.1 == ident)).map (·.2)

/-- `LocalEnv::variable_idents`. -/
def LocalEnv.variable_idents (env : LocalEnv) : List String :=
  env.bindings.map (·.1)

/-- The external environment: unused by the two sampled nodes. -/
abbrev ExternalEnv := Unit

mutual

/-- `Expression::type_def`. For `IfStatement` (lines 109–116): the
consequent's type, `add_null`ed when there is no alternative, `merge_deep`ed
with the alternative's type otherwise. For `Variable` (lines 64–69): the
recorded descriptor, or null-infallible as the defensive fallback. Leaves
are spec-modelled. -/
def type_def : Expr → LocalEnv × ExternalEnv → TypeDef
  | .value v, _ => ⟨[kindOf v], false⟩
  | .fault _, _ => ⟨[.null], true⟩
  | .var node, state =>
    match state.1.lookupVariable node.ident with
    | some d => d.type_def
    | none => TypeDef.null.infallible
  | .ifStatement _ c a, state => type_defAlt a (type_def c state) state

/-- The `match &self.alternative` of `IfStatement::type_def` (lines
112–115), applied to the consequent's already-computed type. -/
def type_defAlt : Option Expr → TypeDef → LocalEnv × ExternalEnv → TypeDef
  | none, td, _ => td.add_null
  | some alternative, td, state => td.merge_deep (type_def alternative state)

end

/-! ### The undefined-variable diagnostic -/

/-- A source span (start and end offsets). -/
abbrev Span := Nat × Nat

/-- `diagnostic::Label`: a labelled span, primary or context. -/
inductive Label where
  | primary (message : String) (span : Span)
  | context (message : String) (span : Span)
  deriving DecidableEq, Repr

/-- Modelled from the spec: `levenstein::distance` (not under src/), the
character-level Levenshtein distance. The classic recursion is made
structural on a fuel argument; the top-level call passes
`fuel = s.length + t.length`, and each recursive call shortens the combined
length by at least one while consuming exactly one unit of fuel, so the
`fuel = 0` fallback is unreachable from `distance`. -/
def distanceFuel : Nat → List Char → List Char → Nat
  | _, [], t => t.length
  | _, s, [] => s.length
  | 0, _, _ => 0
  | fuel + 1, a :: s, b :: t =>
    if a = b then distanceFuel fuel s t
    else 1 + min (distanceFuel fuel (a :: s) t)
      (min (distanceFuel fuel s (b :: t)) (distanceFuel fuel s t))

/-- Modelled from the spec: character-level Levenshtein distance. -/
def distance (s t : List Char) : Nat := distanceFuel (s.length + t.length) s t

/-- `Iterator::min_by_key` over an enumerated score list: the first index
attaining the minimal score, with that score. -/
def firstMinIdx : List Nat → Option (Nat × Nat)
  | [] => none
  | s :: rest =>
    match firstMinIdx rest with
    | none => some (0, s)
    | some (j, sj) => if s ≤ sj then some (0, s) else some (j + 1, sj)

/-- `variable::ErrorVariant` (lines 95–99). -/
inductive ErrorVariant where
  | undefined (idents : List String)
  deriving DecidableEq, Repr

/-- `variable::Error` (lines 78–83). -/
structure Error where
  variant : ErrorVariant
  ident : String
  span : Span
  deriving DecidableEq, Repr

/-- `Error::undefined` (lines 85–93). -/
def Error.undefined (ident : String) (span : Span) (idents : List String) :
    Error :=
  ⟨.undefined idents, ident, span⟩

/-- `Variable::new` (lines 20–34): capture the recorded constant on
success; on an absent identifier, collect the environment's visible
identifiers into an undefined-variable error. -/
def Variable.new (span : Span) (ident : String) (lenv : LocalEnv) :
    Except Error Variable :=
  match lenv.lookupVariable ident with
  | some lvar => .ok ⟨ident, lvar.value⟩
  | none => .error (Error.undefined ident span lenv.variable_idents)

/-- `DiagnosticMessage::code` (lines 114–120): the stable numeric code. -/
def Error.code (e : Error) : Nat :=
  match e.variant with
  | .undefined _ => 701

/-- `DiagnosticMessage::labels` (lines 122–156): a primary label at the
undefined reference, then the environment's identifiers extended by the
built-ins `null`, `true`, `false`; compute each candidate's Levenshtein
distance to the offending identifier's characters and, if a minimum exists,
push a context label with the "did you mean" suggestion. The inner `none`
arm is the out-of-range index panic, unreachable because the minimal index
enumerates the candidate list. -/
def Error.labels (e : Error) : List Label :=
  match e.variant with
  | .undefined idents =>
    match firstMinIdx ((idents ++ ["null", "true", "false"]).map
        (fun possible => distance e.ident.toList possible.toList)) with
    | some (idx, _) =>
      match (idents ++ ["null", "true", "false"])[idx]? with
      | some guessed =>
        [Label.primary "undefined variable" e.span,
         Label.context ("did you mean \"" ++ guessed ++ "\"?") e.span]
      | none => [Label.primary "undefined variable" e.span]
    | none => [Label.primary "undefined variable" e.span]

/-! ### Concrete smoke tests of the embedded definitions -/

example : resolve (.ifStatement (.value (.boolean true)) (.value (.string "a"))
    (some (.value (.string "b")))) ⟨⟨[]⟩⟩ = some (.ok (.string "a")) := by decide

example : resolve (.ifStatement (.value (.boolean false)) (.value (.string "a"))
    (some (.value (.string "b")))) ⟨⟨[]⟩⟩ = some (.ok (.string "b")) := by decide

example : resolve (.ifStatement (.value (.boolean false)) (.value (.string "a"))
    none) ⟨⟨[]⟩⟩ = some (.ok .null) := by decide

example : resolve (.var ⟨"x", none⟩) ⟨⟨[("x", .integer 3)]⟩⟩
    = some (.ok (.integer 3)) := by decide

example :
    resolve_batch
      (.ifStatement (.var ⟨"x", none⟩) (.value (.integer 1)) (some (.value (.integer 2))))
      ⟨[⟨[("x", .boolean true)]⟩, ⟨[("x", .boolean false)]⟩, ⟨[("x", .boolean true)]⟩],
        [.ok .null, .ok .null, .ok .null]⟩
      [0, 1, 2]
    = some ⟨[⟨[("x", .boolean true)]⟩, ⟨[("x", .boolean false)]⟩, ⟨[("x", .boolean true)]⟩],
        [.ok (.integer 1), .ok (.integer 2), .ok (.integer 1)]⟩ := by decide

example : render (.ifStatement (.var ⟨"x", none⟩) (.var ⟨"y", none⟩)
    (some (.var ⟨"z", none⟩))) = "if x y elsez" := by decide

example :
    (type_def (.ifStatement (.var ⟨"b", none⟩) (.value (.string "a"))
      (some (.value (.integer 1)))) (⟨[]⟩, ())).kinds = [.string, .integer] := by
  decide

example : distance "foo".toList "food".toList = 1 := by decide
example : distance "foo".toList "false".toList = 4 := by decide

example :
    (Error.undefined "foo" (0, 3) ["food"]).labels
    = [Label.primary "undefined variable" (0, 3),
       Label.context "did you mean \"food\"?" (0, 3)] := by decide

/-! ### List helpers for the swap-based partition scans -/

theorem set_self_of_getElem? {l : List α} {i : Nat} {x : α}
    (h : l[i]? = some x) : l.set i x = l := by
  induction l generalizing i with
  | nil => simp at h
  | cons a t ih =>
    cases i with
    | zero => simp at h; simp [h]
    | succ i => simp only [List.getElem?_cons_succ] at h; simp [List.set, ih h]

/-- Overwriting position `i` and appending the old inhabitant permutes the
list with the new inhabitant appended. -/
theorem set_concat_perm {l : List α} {i : Nat} {b x : α}
    (h : l[i]? = some x) : (l.set i b ++ [x]).Perm (l ++ [b]) := by
  induction l generalizing i with
  | nil => simp at h
  | cons a t ih =>
    cases i with
    | zero =>
      simp only [List.getElem?_cons_zero, Option.some.injEq] at h
      rw [List.set_cons_zero, List.cons_append, List.cons_append, h]
      have p1 : (b :: (t ++ [x])).Perm (b :: x :: t) :=
        (List.perm_append_singleton x t).cons b
      have p2 : (b :: x :: t).Perm (x :: b :: t) := List.Perm.swap x b t
      have p3 : (x :: b :: t).Perm (x :: (t ++ [b])) :=
        ((List.perm_append_singleton b t).symm).cons x
      exact (p1.trans p2).trans p3
    | succ i =>
      simp only [List.getElem?_cons_succ] at h
      simpa using (ih h).cons a

theorem swapList_length (l : List Nat) (i j : Nat) :
    (swapList l i j).length = l.length := by
  unfold swapList
  rcases hi : l[i]? with _ | a <;> rcases hj : l[j]? with _ | b <;> simp

theorem swapList_getElem?_ne (l : List Nat) (i j k : Nat)
    (hki : k ≠ i) (hkj : k ≠ j) : (swapList l i j)[k]? = l[k]? := by
  unfold swapList
  rcases hi : l[i]? with _ | a <;> rcases hj : l[j]? with _ | b <;>
    simp [List.getElem?_set_ne (Ne.symm hkj), List.getElem?_set_ne (Ne.symm hki)]

/-- The key step of both scans: after swapping the examined element `x` at
position `i` out to position `len - 1` and shrinking the window by one, the
shrunk window plus `x` is a permutation of the old window. -/
theorem swapList_take_perm {v : List Nat} {i len : Nat} {x : Nat}
    (hil : i < len) (hlv : len ≤ v.length) (hx : v[i]? = some x) :
    ((swapList v i (len - 1)).take (len - 1) ++ [x]).Perm (v.take len) := by
  obtain ⟨b, hb⟩ : ∃ b, v[len - 1]? = some b := by
    have : len - 1 < v.length := by omega
    exact ⟨v[len - 1], List.getElem?_eq_getElem this⟩
  have hswap : swapList v i (len - 1) = (v.set i b).set (len - 1) x := by
    unfold swapList; rw [hx, hb]
  have htake : (swapList v i (len - 1)).take (len - 1)
      = (v.take (len - 1)).set i b := by
    rw [hswap, List.set_take, List.set_take]
    have hlen : ((v.take (len - 1)).set i b).length = len - 1 := by
      rw [List.length_set, List.length_take]; omega
    exact List.set_eq_of_length_le (Nat.le_of_eq hlen)
  have hvlen : v.take len = v.take (len - 1) ++ v[len - 1]?.toList := by
    conv_lhs => rw [show len = (len - 1) + 1 from by omega]
    rw [List.take_succ]
  rcases Nat.lt_or_ge i (len - 1) with hi | hi
  · have hx' : (v.take (len - 1))[i]? = some x := by
      rw [List.getElem?_take_of_lt hi]; exact hx
    rw [htake, hvlen, hb]
    exact set_concat_perm hx'
  · -- here i = len - 1, the swap is a self-swap and the set is a no-op
    have hieq : i = len - 1 := by omega
    rw [hieq] at hx
    have hxb : x = b := by rw [hx] at hb; exact Option.some.inj hb
    have hnoop : (v.take (len - 1)).set i b = v.take (len - 1) := by
      apply List.set_eq_of_length_le
      rw [List.length_take]; omega
    rw [htake, hnoop, hvlen, hb, hxb]
    simp

theorem okQ_iff {resolved : List Resolved} {j : Nat} :
    okQ resolved j = true ↔ ∃ v, resolved[j]? = some (.ok v) := by
  rcases hr : resolved[j]? with _ | r
  · simp [okQ, hr]
  · rcases r with v | m
    · simp [okQ, hr]
    · simp [okQ, hr]

theorem errQ_iff {resolved : List Resolved} {j : Nat} :
    errQ resolved j = true ↔ ∃ m, resolved[j]? = some (.error m) := by
  rcases hr : resolved[j]? with _ | r
  · simp [errQ, hr]
  · rcases r with v | m
    · simp [errQ, hr]
    · simp [errQ, hr]

theorem trueQ_iff {resolved : List Resolved} {j : Nat} :
    trueQ resolved j = true ↔ resolved[j]? = some (.ok (.boolean true)) := by
  rcases hr : resolved[j]? with _ | r
  · simp [trueQ, hr]
  · rcases r with m | v
    · simp [trueQ, hr]
    · rcases v with _ | b | z | s
      · simp [trueQ, hr]
      · cases b <;> simp [trueQ, hr]
      · simp [trueQ, hr]
      · simp [trueQ, hr]

theorem falseQ_iff {resolved : List Resolved} {j : Nat} :
    falseQ resolved j = true ↔ resolved[j]? = some (.ok (.boolean false)) := by
  rcases hr : resolved[j]? with _ | r
  · simp [falseQ, hr]
  · rcases r with m | v
    · simp [falseQ, hr]
    · rcases v with _ | b | z | s
      · simp [falseQ, hr]
      · cases b <;> simp [falseQ, hr]
      · simp [falseQ, hr]
      · simp [falseQ, hr]

theorem trueQ_okQ {resolved : List Resolved} {j : Nat}
    (h : trueQ resolved j) : okQ resolved j := by
  rw [trueQ_iff] at h
  exact okQ_iff.mpr ⟨_, h⟩

theorem falseQ_okQ {resolved : List Resolved} {j : Nat}
    (h : falseQ resolved j) : okQ resolved j := by
  rw [falseQ_iff] at h
  exact okQ_iff.mpr ⟨_, h⟩

theorem not_okQ_and_errQ {resolved : List Resolved} {j : Nat}
    (hok : okQ resolved j) (herr : errQ resolved j) : False := by
  rw [okQ_iff] at hok
  rw [errQ_iff] at herr
  obtain ⟨v, hv⟩ := hok
  obtain ⟨m, hm⟩ := herr
  rw [hv] at hm
  simp at hm

theorem not_trueQ_and_falseQ {resolved : List Resolved} {j : Nat}
    (ht : trueQ resolved j) (hf : falseQ resolved j) : False := by
  rw [trueQ_iff] at ht
  rw [falseQ_iff] at hf
  rw [ht] at hf
  simp at hf

/-! ### Characterization of the two partition scans -/

/-- What the fault-filter scan computes: given that the already-examined
prefix holds only non-faulted indices, a successful scan returns a window
that is a permutation of the non-faulted indices of the input window, and
every index of the input window has a classified (in-bounds) slot. -/
theorem faultScan_spec (resolved : List Resolved) :
    ∀ (fuel : Nat) (v : List Nat) (i len : Nat) (v' : List Nat) (len' : Nat),
    faultScan resolved fuel v i len = some (v', len') →
    len - i ≤ fuel → i ≤ len → len ≤ v.length →
    (∀ k, k < i → ∀ x, v[k]? = some x → okQ resolved x) →
    len' ≤ len ∧ v'.length = v.length ∧
    (v'.take len').Perm ((v.take len).filter (okQ resolved)) ∧
    (∀ x ∈ v.take len, okQ resolved x ∨ errQ resolved x) := by
  intro fuel
  induction fuel with
  | zero =>
    intro v i len v' len' hscan hfuel hil hlv hpre
    simp only [faultScan] at hscan
    have hp := Option.some.inj hscan
    obtain ⟨rfl, rfl⟩ : v = v' ∧ len = len' :=
      ⟨congrArg Prod.fst hp, congrArg Prod.snd hp⟩
    have hall : ∀ x ∈ v.take len, okQ resolved x := by
      intro x hx
      obtain ⟨k, hk⟩ := List.mem_iff_getElem?.mp hx
      have hklt : k < len := by
        by_contra hge
        rw [List.getElem?_eq_none (by rw [List.length_take]; omega)] at hk
        exact Option.noConfusion hk
      rw [List.getElem?_take_of_lt hklt] at hk
      exact hpre k (by omega) x hk
    refine ⟨Nat.le_refl _, rfl, ?_, fun x hx => Or.inl (hall x hx)⟩
    rw [List.filter_eq_self.mpr hall]
  | succ fuel ih =>
    intro v i len v' len' hscan hfuel hil hlv hpre
    simp only [faultScan] at hscan
    by_cases hbreak : i ≥ len
    · rw [if_pos hbreak] at hscan
      have hp := Option.some.inj hscan
      obtain ⟨rfl, rfl⟩ : v = v' ∧ len = len' :=
        ⟨congrArg Prod.fst hp, congrArg Prod.snd hp⟩
      have hall : ∀ x ∈ v.take len, okQ resolved x := by
        intro x hx
        obtain ⟨k, hk⟩ := List.mem_iff_getElem?.mp hx
        have hklt : k < len := by
          by_contra hge
          rw [List.getElem?_eq_none (by rw [List.length_take]; omega)] at hk
          exact Option.noConfusion hk
        rw [List.getElem?_take_of_lt hklt] at hk
        exact hpre k (by omega) x hk
      refine ⟨Nat.le_refl _, rfl, ?_, fun x hx => Or.inl (hall x hx)⟩
      rw [List.filter_eq_self.mpr hall]
    · rw [if_neg hbreak] at hscan
      have hi : i < len := by omega
      split at hscan
      · exact Option.noConfusion hscan
      rename_i x hx
      split at hscan
      · exact Option.noConfusion hscan
      · -- fault: the element is swapped out to the tail
        rename_i m hr
        have herrx : errQ resolved x := errQ_iff.mpr ⟨m, hr⟩
        have hperm := swapList_take_perm hi hlv hx
        have hpre' : ∀ k, k < i → ∀ y, (swapList v i (len - 1))[k]? = some y →
            okQ resolved y := by
          intro k hk y hy
          rw [swapList_getElem?_ne v i (len - 1) k (by omega) (by omega)] at hy
          exact hpre k hk y hy
        obtain ⟨h1, h2, h3, h4⟩ := ih (swapList v i (len - 1)) i (len - 1) v' len'
          hscan (by omega) (by omega) (by rw [swapList_length]; omega) hpre'
        have hfperm : (((swapList v i (len - 1)).take (len - 1)).filter (okQ resolved)).Perm
            ((v.take len).filter (okQ resolved)) := by
          have hflt := hperm.filter (okQ resolved)
          rw [List.filter_append] at hflt
          have hxfilter : [x].filter (okQ resolved) = [] := by
            simp only [List.filter_cons, List.filter_nil]
            rw [if_neg]
            intro hok
            exact not_okQ_and_errQ hok herrx
          rw [hxfilter, List.append_nil] at hflt
          exact hflt
        refine ⟨by omega, by rw [h2, swapList_length], h3.trans hfperm, ?_⟩
        intro y hy
        rcases List.mem_append.mp ((hperm.mem_iff).mpr hy) with hyin | hyx
        · exact h4 y hyin
        · rw [List.mem_singleton] at hyx
          subst hyx
          exact Or.inr herrx
      · -- success: the element stays, advance the cursor
        rename_i val hr
        have hokx : okQ resolved x := okQ_iff.mpr ⟨val, hr⟩
        have hpre' : ∀ k, k < i + 1 → ∀ y, v[k]? = some y → okQ resolved y := by
          intro k hk y hy
          rcases Nat.lt_or_ge k i with hki | hki
          · exact hpre k hki y hy
          · have hkeq : k = i := by omega
            subst hkeq
            rw [hx] at hy
            exact Option.some.inj hy ▸ hokx
        obtain ⟨h1, h2, h3, h4⟩ := ih v (i + 1) len v' len' hscan
          (by omega) (by omega) hlv hpre'
        exact ⟨h1, h2, h3, h4⟩

/-- What the boolean-split scan computes: a successful scan returns a
window that is a permutation of the true-recorded indices of the input
window, an else-vector extending `acc` by a permutation of the
false-recorded indices, and every index of the input window carries a
recorded boolean. -/
theorem boolScan_spec (resolved : List Resolved) :
    ∀ (fuel : Nat) (v acc : List Nat) (i len : Nat)
      (v' : List Nat) (len' : Nat) (acc' : List Nat),
    boolScan resolved fuel v acc i len = some (v', len', acc') →
    len - i ≤ fuel → i ≤ len → len ≤ v.length →
    (∀ k, k < i → ∀ x, v[k]? = some x → trueQ resolved x) →
    len' ≤ len ∧ v'.length = v.length ∧
    (v'.take len').Perm ((v.take len).filter (trueQ resolved)) ∧
    acc'.Perm (acc ++ (v.take len).filter (falseQ resolved)) ∧
    (∀ x ∈ v.take len, trueQ resolved x ∨ falseQ resolved x) := by
  intro fuel
  induction fuel with
  | zero =>
    intro v acc i len v' len' acc' hscan hfuel hil hlv hpre
    simp only [boolScan] at hscan
    have hp := Option.some.inj hscan
    obtain ⟨rfl, rfl, rfl⟩ : v = v' ∧ len = len' ∧ acc = acc' :=
      ⟨congrArg Prod.fst hp, congrArg (Prod.fst ∘ Prod.snd) hp,
        congrArg (Prod.snd ∘ Prod.snd) hp⟩
    have hall : ∀ x ∈ v.take len, trueQ resolved x := by
      intro x hx
      obtain ⟨k, hk⟩ := List.mem_iff_getElem?.mp hx
      have hklt : k < len := by
        by_contra hge
        rw [List.getElem?_eq_none (by rw [List.length_take]; omega)] at hk
        exact Option.noConfusion hk
      rw [List.getElem?_take_of_lt hklt] at hk
      exact hpre k (by omega) x hk
    have hfalse : (v.take len).filter (falseQ resolved) = [] := by
      rw [List.filter_eq_nil_iff]
      intro x hx hfx
      exact not_trueQ_and_falseQ (hall x hx) hfx
    refine ⟨Nat.le_refl _, rfl, ?_, ?_, fun x hx => Or.inl (hall x hx)⟩
    · rw [List.filter_eq_self.mpr hall]
    · rw [hfalse, List.append_nil]
  | succ fuel ih =>
    intro v acc i len v' len' acc' hscan hfuel hil hlv hpre
    simp only [boolScan] at hscan
    by_cases hbreak : i ≥ len
    · rw [if_pos hbreak] at hscan
      have hp := Option.some.inj hscan
      obtain ⟨rfl, rfl, rfl⟩ : v = v' ∧ len = len' ∧ acc = acc' :=
        ⟨congrArg Prod.fst hp, congrArg (Prod.fst ∘ Prod.snd) hp,
          congrArg (Prod.snd ∘ Prod.snd) hp⟩
      have hall : ∀ x ∈ v.take len, trueQ resolved x := by
        intro x hx
        obtain ⟨k, hk⟩ := List.mem_iff_getElem?.mp hx
        have hklt : k < len := by
          by_contra hge
          rw [List.getElem?_eq_none (by rw [List.length_take]; omega)] at hk
          exact Option.noConfusion hk
        rw [List.getElem?_take_of_lt hklt] at hk
        exact hpre k (by omega) x hk
      have hfalse : (v.take len).filter (falseQ resolved) = [] := by
        rw [List.filter_eq_nil_iff]
        intro x hx hfx
        exact not_trueQ_and_falseQ (hall x hx) hfx
      refine ⟨Nat.le_refl _, rfl, ?_, ?_, fun x hx => Or.inl (hall x hx)⟩
      · rw [List.filter_eq_self.mpr hall]
      · rw [hfalse, List.append_nil]
    · rw [if_neg hbreak] at hscan
      have hi : i < len := by omega
      split at hscan
      · exact Option.noConfusion hscan
      rename_i x hx
      split at hscan
      · -- true: the element stays, advance the cursor
        rename_i hr
        have htx : trueQ resolved x := trueQ_iff.mpr hr
        have hpre' : ∀ k, k < i + 1 → ∀ y, v[k]? = some y → trueQ resolved y := by
          intro k hk y hy
          rcases Nat.lt_or_ge k i with hki | hki
          · exact hpre k hki y hy
          · have hkeq : k = i := by omega
            subst hkeq
            rw [hx] at hy
            exact Option.some.inj hy ▸ htx
        exact ih v acc (i + 1) len v' len' acc' hscan (by omega) (by omega) hlv hpre'
      · -- false: swap out to the tail and push onto the else-vector
        rename_i hr
        have hfx : falseQ resolved x := falseQ_iff.mpr hr
        have hperm := swapList_take_perm hi hlv hx
        have hpre' : ∀ k, k < i → ∀ y, (swapList v i (len - 1))[k]? = some y →
            trueQ resolved y := by
          intro k hk y hy
          rw [swapList_getElem?_ne v i (len - 1) k (by omega) (by omega)] at hy
          exact hpre k hk y hy
        obtain ⟨h1, h2, h3, h4, h5⟩ := ih (swapList v i (len - 1)) (acc ++ [x]) i
          (len - 1) v' len' acc' hscan (by omega) (by omega)
          (by rw [swapList_length]; omega) hpre'
        have hwtake := hperm.filter (trueQ resolved)
        rw [List.filter_append] at hwtake
        have hxt : [x].filter (trueQ resolved) = [] := by
          simp only [List.filter_cons, List.filter_nil]
          rw [if_neg]
          intro ht
          exact not_trueQ_and_falseQ ht hfx
        rw [hxt, List.append_nil] at hwtake
        have hwfalse := hperm.filter (falseQ resolved)
        rw [List.filter_append] at hwfalse
        have hxf : [x].filter (falseQ resolved) = [x] := by
          simp only [List.filter_cons, List.filter_nil]
          rw [if_pos hfx]
        rw [hxf] at hwfalse
        refine ⟨by omega, by rw [h2, swapList_length], h3.trans hwtake, ?_, ?_⟩
        · -- acc' ~ acc ++ filter falseQ (v.take len)
          refine h4.trans ?_
          have hstep : (acc ++ [x] ++
              ((swapList v i (len - 1)).take (len - 1)).filter (falseQ resolved)).Perm
              (acc ++ (((swapList v i (len - 1)).take (len - 1)).filter (falseQ resolved)
                ++ [x])) := by
            rw [List.append_assoc]
            exact (List.perm_append_singleton x _).symm.append_left acc
          refine hstep.trans ?_
          exact hwfalse.append_left acc
        · intro y hy
          rcases List.mem_append.mp ((hperm.mem_iff).mpr hy) with hyin | hyx
          · exact h5 y hyin
          · rw [List.mem_singleton] at hyx
            subst hyx
            exact Or.inr hfx
      · -- any other recorded slot is the unreachable! panic
        exact Option.noConfusion hscan

/-- The fault-filter scan cannot panic when every index of the window has an
in-bounds resolution slot. -/
theorem faultScan_isSome (resolved : List Resolved) :
    ∀ (fuel : Nat) (v : List Nat) (i len : Nat),
    len - i ≤ fuel → len ≤ v.length →
    (∀ x ∈ v.take len, okQ resolved x ∨ errQ resolved x) →
    (faultScan resolved fuel v i len).isSome := by
  intro fuel
  induction fuel with
  | zero =>
    intro v i len hfuel hlv hcls
    simp [faultScan]
  | succ fuel ih =>
    intro v i len hfuel hlv hcls
    simp only [faultScan]
    by_cases hbreak : i ≥ len
    · rw [if_pos hbreak]; simp
    · rw [if_neg hbreak]
      have hi : i < len := by omega
      obtain ⟨x, hx⟩ : ∃ x, v[i]? = some x :=
        ⟨v.get ⟨i, by omega⟩, List.getElem?_eq_getElem (by omega)⟩
      have hxmem : x ∈ v.take len := by
        have htk : (v.take len)[i]? = some x := by
          rw [List.getElem?_take_of_lt hi]; exact hx
        exact List.mem_iff_getElem?.mpr ⟨i, htk⟩
      obtain ⟨r, hr⟩ : ∃ r, resolved[x]? = some r := by
        rcases hcls x hxmem with hok | herr
        · obtain ⟨w, hw⟩ := okQ_iff.mp hok; exact ⟨.ok w, hw⟩
        · obtain ⟨m, hm⟩ := errQ_iff.mp herr; exact ⟨.error m, hm⟩
      rcases r with m | val
      · -- fault branch
        simp only [hx, hr]
        have hperm := swapList_take_perm hi hlv hx
        refine ih (swapList v i (len - 1)) i (len - 1) (by omega)
          (by rw [swapList_length]; omega) ?_
        intro y hy
        exact hcls y ((hperm.mem_iff).mp (List.mem_append.mpr (Or.inl hy)))
      · -- ok branch
        simp only [hx, hr]
        exact ih v (i + 1) len (by omega) hlv hcls

/-- The boolean-split scan cannot panic when every index of the window has a
recorded boolean result. -/
theorem boolScan_isSome (resolved : List Resolved) :
    ∀ (fuel : Nat) (v acc : List Nat) (i len : Nat),
    len - i ≤ fuel → len ≤ v.length →
    (∀ x ∈ v.take len, trueQ resolved x ∨ falseQ resolved x) →
    (boolScan resolved fuel v acc i len).isSome := by
  intro fuel
  induction fuel with
  | zero =>
    intro v acc i len hfuel hlv hcls
    simp [boolScan]
  | succ fuel ih =>
    intro v acc i len hfuel hlv hcls
    simp only [boolScan]
    by_cases hbreak : i ≥ len
    · rw [if_pos hbreak]; simp
    · rw [if_neg hbreak]
      have hi : i < len := by omega
      obtain ⟨x, hx⟩ : ∃ x, v[i]? = some x :=
        ⟨v.get ⟨i, by omega⟩, List.getElem?_eq_getElem (by omega)⟩
      have hxmem : x ∈ v.take len := by
        have htk : (v.take len)[i]? = some x := by
          rw [List.getElem?_take_of_lt hi]; exact hx
        exact List.mem_iff_getElem?.mpr ⟨i, htk⟩
      rcases hcls x hxmem with ht | hf
      · simp only [hx, trueQ_iff.mp ht]
        exact ih v acc (i + 1) len (by omega) hlv hcls
      · simp only [hx, falseQ_iff.mp hf]
        have hperm := swapList_take_perm hi hlv hx
        refine ih (swapList v i (len - 1)) (acc ++ [x]) i (len - 1) (by omega)
          (by rw [swapList_length]; omega) ?_
        intro y hy
        exact hcls y ((hperm.mem_iff).mp (List.mem_append.mpr (Or.inl hy)))

theorem trueQ_and_okQ (resolved : List Resolved) (j : Nat) :
    (trueQ resolved j && okQ resolved j) = trueQ resolved j := by
  rcases ht : trueQ resolved j
  · simp
  · simp [trueQ_okQ ht]

theorem falseQ_and_okQ (resolved : List Resolved) (j : Nat) :
    (falseQ resolved j && okQ resolved j) = falseQ resolved j := by
  rcases hf : falseQ resolved j
  · simp
  · simp [falseQ_okQ hf]

/-- What lines 54–96 compute, in terms of the recorded slots: the final
`selection_vector_if` is a permutation of the selected indices whose slot
records `Ok(Boolean(true))`, the final `selection_vector_else` a
permutation of those recording `Ok(Boolean(false))`, and every selected
index records a boolean or a fault. -/
theorem ifPartition_spec (resolved : List Resolved) (sel selIf selElse : List Nat)
    (h : ifPartition resolved sel = some (selIf, selElse)) :
    selIf.Perm (sel.filter (trueQ resolved)) ∧
    selElse.Perm (sel.filter (falseQ resolved)) ∧
    (∀ x ∈ sel, trueQ resolved x ∨ falseQ resolved x ∨ errQ resolved x) := by
  unfold ifPartition at h
  split at h
  · exact Option.noConfusion h
  rename_i v1 len1 hscan1
  split at h
  · exact Option.noConfusion h
  rename_i v2 len2 vElse hscan2
  have hp := Option.some.inj h
  obtain ⟨rfl, rfl⟩ : v2.take len2 = selIf ∧ vElse = selElse :=
    ⟨congrArg Prod.fst hp, congrArg Prod.snd hp⟩
  obtain ⟨hl1, hv1len, hperm1, hcls1⟩ := faultScan_spec resolved sel.length sel 0
    sel.length v1 len1 hscan1 (by omega) (by omega) (by omega)
    (fun k hk => absurd hk (Nat.not_lt_zero k))
  rw [List.take_length] at hperm1
  obtain ⟨hl2, hv2len, hperm2, hpermE, hcls2⟩ := boolScan_spec resolved
    (v1.take len1).length (v1.take len1) [] 0 (v1.take len1).length v2 len2 vElse
    hscan2 (by omega) (by omega) (by omega)
    (fun k hk => absurd hk (Nat.not_lt_zero k))
  rw [List.take_length] at hperm2 hpermE hcls2
  rw [List.nil_append] at hpermE
  have htfun : (fun a => trueQ resolved a && okQ resolved a) = trueQ resolved :=
    funext fun a => trueQ_and_okQ resolved a
  have hffun : (fun a => falseQ resolved a && okQ resolved a) = falseQ resolved :=
    funext fun a => falseQ_and_okQ resolved a
  have hIf : (v2.take len2).Perm (sel.filter (trueQ resolved)) := by
    refine hperm2.trans ?_
    have := hperm1.filter (trueQ resolved)
    rw [List.filter_filter, htfun] at this
    exact this
  have hElse : vElse.Perm (sel.filter (falseQ resolved)) := by
    refine hpermE.trans ?_
    have := hperm1.filter (falseQ resolved)
    rw [List.filter_filter, hffun] at this
    exact this
  refine ⟨hIf, hElse, ?_⟩
  intro x hx
  have hx' : x ∈ sel.take sel.length := by rw [List.take_length]; exact hx
  rcases hcls1 x hx' with hok | herr
  · have hxin : x ∈ v1.take len1 := by
      rw [hperm1.mem_iff]
      exact List.mem_filter.mpr ⟨hx, hok⟩
    rcases hcls2 x hxin with ht | hf
    · exact Or.inl ht
    · exact Or.inr (Or.inl hf)
  · exact Or.inr (Or.inr herr)

/-- Lines 54–96 cannot panic when every selected index holds a recorded
boolean or fault (that is, when the predicate pass has classified every
selected row). -/
theorem ifPartition_isSome (resolved : List Resolved) (sel : List Nat)
    (hcls : ∀ x ∈ sel, trueQ resolved x ∨ falseQ resolved x ∨ errQ resolved x) :
    (ifPartition resolved sel).isSome := by
  unfold ifPartition
  have h1 : (faultScan resolved sel.length sel 0 sel.length).isSome := by
    refine faultScan_isSome resolved sel.length sel 0 sel.length (by omega)
      (by omega) ?_
    intro x hx
    rw [List.take_length] at hx
    rcases hcls x hx with ht | hf | he
    · exact Or.inl (trueQ_okQ ht)
    · exact Or.inl (falseQ_okQ hf)
    · exact Or.inr he
  obtain ⟨⟨v1, len1⟩, hscan1⟩ := Option.isSome_iff_exists.mp h1
  simp only [hscan1]
  obtain ⟨hl1, hv1len, hperm1, hcls1⟩ := faultScan_spec resolved sel.length sel 0
    sel.length v1 len1 hscan1 (by omega) (by omega) (by omega)
    (fun k hk => absurd hk (Nat.not_lt_zero k))
  rw [List.take_length] at hperm1
  have h2 : (boolScan resolved (v1.take len1).length (v1.take len1) [] 0
      (v1.take len1).length).isSome := by
    refine boolScan_isSome resolved (v1.take len1).length (v1.take len1) [] 0
      (v1.take len1).length (by omega) (by omega) ?_
    intro x hx
    rw [List.take_length] at hx
    have hxf : x ∈ sel.filter (okQ resolved) := hperm1.mem_iff.mp hx
    obtain ⟨hxs, hxok⟩ := List.mem_filter.mp hxf
    rcases hcls x hxs with ht | hf | he
    · exact Or.inl ht
    · exact Or.inr hf
    · exact absurd he (fun he => not_okQ_and_errQ hxok he)
  obtain ⟨⟨v2, len2, vElse⟩, hscan2⟩ := Option.isSome_iff_exists.mp h2
  simp only [hscan2]
  rfl

/-! ### The slot-write loops -/

theorem writeAll_spec (r : Resolved) :
    ∀ (sel : List Nat) (resolved : List Resolved),
    (∀ j ∈ sel, j < resolved.length) →
    ∃ out, writeAll resolved sel r = some out ∧ out.length = resolved.length ∧
      (∀ j ∈ sel, out[j]? = some r) ∧
      (∀ j, j ∉ sel → out[j]? = resolved[j]?) := by
  intro sel
  induction sel with
  | nil =>
    intro resolved hb
    exact ⟨resolved, rfl, rfl, fun j hj => absurd hj (List.not_mem_nil j),
      fun j hj => rfl⟩
  | cons i rest ih =>
    intro resolved hb
    have hi : i < resolved.length := hb i (List.mem_cons_self i rest)
    obtain ⟨out, hcall, hlen, hmem, hfr⟩ := ih (resolved.set i r)
      (fun j hj => by rw [List.length_set]; exact hb j (List.mem_cons_of_mem i hj))
    refine ⟨out, ?_, by rw [hlen, List.length_set], ?_, ?_⟩
    · simp only [writeAll, if_pos hi]
      exact hcall
    · intro j hj
      rcases List.mem_cons.mp hj with rfl | hjr
      · by_cases hjrest : j ∈ rest
        · exact hmem j hjrest
        · rw [hfr j hjrest, List.getElem?_set_self hi]
      · exact hmem j hjr
    · intro j hj
      have hji : j ≠ i := fun hji => hj (hji ▸ List.mem_cons_self i rest)
      have hjr : j ∉ rest := fun hjr => hj (List.mem_cons_of_mem i hjr)
      rw [hfr j hjr, List.getElem?_set_ne (Ne.symm hji)]

theorem variableWriteLoop_spec (ident : String) (states : List Runtime) :
    ∀ (sel : List Nat) (resolved : List Resolved),
    (∀ j ∈ sel, j < states.length ∧ j < resolved.length) →
    ∃ out, variableWriteLoop ident states resolved sel = some out ∧
      out.length = resolved.length ∧
      (∀ j ∈ sel, ∀ st, states[j]? = some st →
        out[j]? = some (.ok ((st.lookupVariable ident).getD .null))) ∧
      (∀ j, j ∉ sel → out[j]? = resolved[j]?) := by
  intro sel
  induction sel with
  | nil =>
    intro resolved hb
    exact ⟨resolved, rfl, rfl, fun j hj => absurd hj (List.not_mem_nil j),
      fun j hj => rfl⟩
  | cons i rest ih =>
    intro resolved hb
    obtain ⟨his, hir⟩ := hb i (List.mem_cons_self i rest)
    obtain ⟨sti, hsti⟩ : ∃ st, states[i]? = some st :=
      ⟨states[i], List.getElem?_eq_getElem his⟩
    obtain ⟨out, hcall, hlen, hmem, hfr⟩ := ih
      (resolved.set i (.ok ((sti.lookupVariable ident).getD .null)))
      (fun j hj => by
        rw [List.length_set]
        exact hb j (List.mem_cons_of_mem i hj))
    refine ⟨out, ?_, by rw [hlen, List.length_set], ?_, ?_⟩
    · simp only [variableWriteLoop, hsti, if_pos hir]
      exact hcall
    · intro j hj st hst
      rcases List.mem_cons.mp hj with rfl | hjr
      · by_cases hjrest : j ∈ rest
        · exact hmem j hjrest st hst
        · rw [hfr j hjrest, List.getElem?_set_self hir]
          rw [hsti] at hst
          rw [Option.some.inj hst]
      · exact hmem j hjr st hst
    · intro j hj
      have hji : j ≠ i := fun hji => hj (hji ▸ List.mem_cons_self i rest)
      have hjr : j ∉ rest := fun hjr => hj (List.mem_cons_of_mem i hjr)
      rw [hfr j hjr, List.getElem?_set_ne (Ne.symm hji)]

/-! ### Scalar/batch agreement: the pointwise refinement theorem -/

/-- The central refinement lemma: on a selection whose rows are in bounds
and panic-free under scalar resolution, batch resolution succeeds, leaves
the binding states untouched, writes into each selected row's slot exactly
the value-or-fault that scalar resolution computes on that row's state, and
leaves every unselected slot unchanged. -/
theorem resolve_batch_pointwise_aux :
    ∀ (n : Nat) (e : Expr), esize e ≤ n →
    ∀ (states : List Runtime) (resolved : List Resolved) (sel : List Nat),
    (∀ j ∈ sel, j < states.length ∧ j < resolved.length) →
    (∀ j ∈ sel, ∀ st, states[j]? = some st → (resolve e ⟨st⟩).isSome) →
    ∃ out, resolve_batch e ⟨states, resolved⟩ sel = some ⟨states, out⟩ ∧
      out.length = resolved.length ∧
      (∀ j ∈ sel, ∀ st, states[j]? = some st → out[j]? = resolve e ⟨st⟩) ∧
      (∀ j, j ∉ sel → out[j]? = resolved[j]?) := by
  intro n
  induction n using Nat.strong_induction_on with
  | _ n ih =>
    intro e hsize states resolved sel hb hok
    cases e with
    | value v =>
      obtain ⟨out, hcall, hlen, hmem, hfr⟩ := writeAll_spec (.ok v) sel resolved
        (fun j hj => (hb j hj).2)
      refine ⟨out, ?_, hlen, ?_, hfr⟩
      · simp only [resolve_batch, hcall]
        rfl
      · intro j hj st hst
        rw [hmem j hj]
        rfl
    | fault msg =>
      obtain ⟨out, hcall, hlen, hmem, hfr⟩ := writeAll_spec (.error msg) sel resolved
        (fun j hj => (hb j hj).2)
      refine ⟨out, ?_, hlen, ?_, hfr⟩
      · simp only [resolve_batch, hcall]
        rfl
      · intro j hj st hst
        rw [hmem j hj]
        rfl
    | var node =>
      obtain ⟨out, hcall, hlen, hmem, hfr⟩ := variableWriteLoop_spec node.ident
        states sel resolved hb
      refine ⟨out, ?_, hlen, ?_, hfr⟩
      · simp only [resolve_batch, hcall]
        rfl
      · intro j hj st hst
        rw [hmem j hj st hst]
        rfl
    | ifStatement p c a =>
      have hsp : esize p < n := by
        rw [esize] at hsize
        omega
      have hsc : esize c < n := by
        rw [esize] at hsize
        omega
      -- every selected row can resolve the predicate without panicking
      have hokp : ∀ j ∈ sel, ∀ st, states[j]? = some st →
          (resolve p ⟨st⟩).isSome := by
        intro j hj st hst
        have hse := hok j hj st hst
        rcases hps : resolve p ⟨st⟩ with _ | r
        · rw [resolve, hps] at hse
          simp at hse
        · simp
      obtain ⟨out1, hcall1, hlen1, hmem1, hfr1⟩ := ih (esize p) hsp p le_rfl
        states resolved sel hb hokp
      -- each selected slot now records a fault or a boolean
      have hcls : ∀ j ∈ sel, trueQ out1 j ∨ falseQ out1 j ∨ errQ out1 j := by
        intro j hj
        obtain ⟨hjs, hjr⟩ := hb j hj
        obtain ⟨st, hst⟩ : ∃ st, states[j]? = some st :=
          ⟨states[j], List.getElem?_eq_getElem hjs⟩
        have hslot := hmem1 j hj st hst
        obtain ⟨r, hr⟩ := Option.isSome_iff_exists.mp (hokp j hj st hst)
        rcases r with m | pv
        · exact Or.inr (Or.inr (errQ_iff.mpr ⟨m, by rw [hslot, hr]⟩))
        · rcases pv with _ | b | z | str
          · exact absurd (hok j hj st hst) (by rw [resolve, hr]; simp)
          · cases b
            · exact Or.inr (Or.inl (falseQ_iff.mpr (by rw [hslot, hr])))
            · exact Or.inl (trueQ_iff.mpr (by rw [hslot, hr]))
          · exact absurd (hok j hj st hst) (by rw [resolve, hr]; simp)
          · exact absurd (hok j hj st hst) (by rw [resolve, hr]; simp)
      obtain ⟨⟨selIf, selElse⟩, hpart⟩ :=
        Option.isSome_iff_exists.mp (ifPartition_isSome out1 sel hcls)
      obtain ⟨hpermIf, hpermElse, _⟩ := ifPartition_spec out1 sel selIf selElse hpart
      have hIfmem : ∀ j, j ∈ selIf ↔ j ∈ sel ∧ trueQ out1 j := by
        intro j
        rw [hpermIf.mem_iff, List.mem_filter]
      have hElsemem : ∀ j, j ∈ selElse ↔ j ∈ sel ∧ falseQ out1 j := by
        intro j
        rw [hpermElse.mem_iff, List.mem_filter]
      -- the slot of each selected row after the predicate pass
      have hslotp : ∀ j ∈ sel, ∀ st, states[j]? = some st →
          out1[j]? = resolve p ⟨st⟩ := hmem1
      -- the consequent descends on the true subset
      have hbIf : ∀ j ∈ selIf, j < states.length ∧ j < out1.length := by
        intro j hj
        obtain ⟨hjs, _⟩ := hIfmem j |>.mp hj
        obtain ⟨h1, h2⟩ := hb j hjs
        exact ⟨h1, by omega⟩
      have hokc : ∀ j ∈ selIf, ∀ st, states[j]? = some st →
          (resolve c ⟨st⟩).isSome := by
        intro j hj st hst
        obtain ⟨hjs, hjt⟩ := hIfmem j |>.mp hj
        have := trueQ_iff.mp hjt
        rw [hslotp j hjs st hst] at this
        have hse := hok j hjs st hst
        rw [resolve, this] at hse
        exact hse
      obtain ⟨out2, hcall2, hlen2, hmem2, hfr2⟩ := ih (esize c) hsc c le_rfl
        states out1 selIf hbIf hokc
      cases a with
      | some alt =>
        have hsa : esize alt < n := by
          rw [esize] at hsize
          rw [esizeAlt] at hsize
          omega
        have hbElse : ∀ j ∈ selElse, j < states.length ∧ j < out2.length := by
          intro j hj
          obtain ⟨hjs, _⟩ := hElsemem j |>.mp hj
          obtain ⟨h1, h2⟩ := hb j hjs
          exact ⟨h1, by omega⟩
        have hoka : ∀ j ∈ selElse, ∀ st, states[j]? = some st →
            (resolve alt ⟨st⟩).isSome := by
          intro j hj st hst
          obtain ⟨hjs, hjf⟩ := hElsemem j |>.mp hj
          have := falseQ_iff.mp hjf
          rw [hslotp j hjs st hst] at this
          have hse := hok j hjs st hst
          rw [resolve, this] at hse
          exact hse
        obtain ⟨out3, hcall3, hlen3, hmem3, hfr3⟩ := ih (esize alt) hsa alt le_rfl
          states out2 selElse hbElse hoka
        refine ⟨out3, ?_, by omega, ?_, ?_⟩
        · simp only [resolve_batch, resolve_batchAlt, hcall1, hpart, hcall2, hcall3]
        · intro j hj st hst
          have hslot := hslotp j hj st hst
          obtain ⟨r, hr⟩ := Option.isSome_iff_exists.mp (hokp j hj st hst)
          rcases r with m | pv
          · -- predicate fault: the recorded fault survives both descents
            have hjnIf : j ∉ selIf := by
              intro hjIf
              obtain ⟨_, hjt⟩ := hIfmem j |>.mp hjIf
              have := trueQ_iff.mp hjt
              rw [hslot, hr] at this
              exact Option.noConfusion this (fun h => Except.noConfusion h)
            have hjnElse : j ∉ selElse := by
              intro hjElse
              obtain ⟨_, hjf⟩ := hElsemem j |>.mp hjElse
              have := falseQ_iff.mp hjf
              rw [hslot, hr] at this
              exact Option.noConfusion this (fun h => Except.noConfusion h)
            rw [hfr3 j hjnElse, hfr2 j hjnIf, hslot, hr, resolve, hr]
          · rcases pv with _ | b | z | str
            · exact absurd (hok j hj st hst) (by rw [resolve, hr]; simp)
            · cases b
              · -- predicate false: the alternative's row result
                have hjElse : j ∈ selElse :=
                  hElsemem j |>.mpr ⟨hj, falseQ_iff.mpr (by rw [hslot, hr])⟩
                rw [hmem3 j hjElse st hst, resolve, hr, resolveAlt]
              · -- predicate true: the consequent's row result
                have hjIf : j ∈ selIf :=
                  hIfmem j |>.mpr ⟨hj, trueQ_iff.mpr (by rw [hslot, hr])⟩
                have hjnElse : j ∉ selElse := by
                  intro hjE
                  obtain ⟨_, hjf⟩ := hElsemem j |>.mp hjE
                  exact not_trueQ_and_falseQ (trueQ_iff.mpr (by rw [hslot, hr])) hjf
                rw [hfr3 j hjnElse, hmem2 j hjIf st hst, resolve, hr]
            · exact absurd (hok j hj st hst) (by rw [resolve, hr]; simp)
            · exact absurd (hok j hj st hst) (by rw [resolve, hr]; simp)
        · intro j hj
          have hjnIf : j ∉ selIf := fun hjIf => hj (hIfmem j |>.mp hjIf).1
          have hjnElse : j ∉ selElse := fun hjE => hj (hElsemem j |>.mp hjE).1
          rw [hfr3 j hjnElse, hfr2 j hjnIf, hfr1 j hj]
      | none =>
        have hbElse : ∀ j ∈ selElse, j < out2.length := by
          intro j hj
          obtain ⟨hjs, _⟩ := hElsemem j |>.mp hj
          obtain ⟨h1, h2⟩ := hb j hjs
          omega
        obtain ⟨out3, hcall3, hlen3, hmem3, hfr3⟩ :=
          writeAll_spec (.ok Value.null) selElse out2 hbElse
        refine ⟨out3, ?_, by omega, ?_, ?_⟩
        · simp only [resolve_batch, resolve_batchAlt, hcall1, hpart, hcall2, hcall3]
          rfl
        · intro j hj st hst
          have hslot := hslotp j hj st hst
          obtain ⟨r, hr⟩ := Option.isSome_iff_exists.mp (hokp j hj st hst)
          rcases r with m | pv
          · have hjnIf : j ∉ selIf := by
              intro hjIf
              obtain ⟨_, hjt⟩ := hIfmem j |>.mp hjIf
              have := trueQ_iff.mp hjt
              rw [hslot, hr] at this
              exact Option.noConfusion this (fun h => Except.noConfusion h)
            have hjnElse : j ∉ selElse := by
              intro hjElse
              obtain ⟨_, hjf⟩ := hElsemem j |>.mp hjElse
              have := falseQ_iff.mp hjf
              rw [hslot, hr] at this
              exact Option.noConfusion this (fun h => Except.noConfusion h)
            rw [hfr3 j hjnElse, hfr2 j hjnIf, hslot, hr, resolve, hr]
          · rcases pv with _ | b | z | str
            · exact absurd (hok j hj st hst) (by rw [resolve, hr]; simp)
            · cases b
              · -- predicate false, no alternative: Ok(Null) is written directly
                have hjElse : j ∈ selElse :=
                  hElsemem j |>.mpr ⟨hj, falseQ_iff.mpr (by rw [hslot, hr])⟩
                rw [hmem3 j hjElse, resolve, hr, resolveAlt]
              · have hjIf : j ∈ selIf :=
                  hIfmem j |>.mpr ⟨hj, trueQ_iff.mpr (by rw [hslot, hr])⟩
                have hjnElse : j ∉ selElse := by
                  intro hjE
                  obtain ⟨_, hjf⟩ := hElsemem j |>.mp hjE
                  exact not_trueQ_and_falseQ (trueQ_iff.mpr (by rw [hslot, hr])) hjf
                rw [hfr3 j hjnElse, hmem2 j hjIf st hst, resolve, hr]
            · exact absurd (hok j hj st hst) (by rw [resolve, hr]; simp)
            · exact absurd (hok j hj st hst) (by rw [resolve, hr]; simp)
        · intro j hj
          have hjnIf : j ∉ selIf := fun hjIf => hj (hIfmem j |>.mp hjIf).1
          have hjnElse : j ∉ selElse := fun hjE => hj (hElsemem j |>.mp hjE).1
          rw [hfr3 j hjnElse, hfr2 j hjnIf, hfr1 j hj]

/-- `resolve_batch_pointwise_aux` at the natural size bound. -/
theorem resolve_batch_pointwise (e : Expr) (states : List Runtime)
    (resolved : List Resolved) (sel : List Nat)
    (hb : ∀ j ∈ sel, j < states.length ∧ j < resolved.length)
    (hok : ∀ j ∈ sel, ∀ st, states[j]? = some st → (resolve e ⟨st⟩).isSome) :
    ∃ out, resolve_batch e ⟨states, resolved⟩ sel = some ⟨states, out⟩ ∧
      out.length = resolved.length ∧
      (∀ j ∈ sel, ∀ st, states[j]? = some st → out[j]? = resolve e ⟨st⟩) ∧
      (∀ j, j ∉ sel → out[j]? = resolved[j]?) :=
  resolve_batch_pointwise_aux (esize e) e le_rfl states resolved sel hb hok

theorem firstMinIdx_spec :
    ∀ (l : List Nat) (j sj : Nat), firstMinIdx l = some (j, sj) →
    l[j]? = some sj ∧ ∀ s ∈ l, sj ≤ s := by
  intro l
  induction l with
  | nil => intro j sj h; exact Option.noConfusion h
  | cons s rest ih =>
    intro j sj h
    rw [firstMinIdx] at h
    rcases hrest : firstMinIdx rest with _ | ⟨jr, sr⟩
    · simp only [hrest] at h
      have hp := Option.some.inj h
      obtain ⟨rfl, rfl⟩ : 0 = j ∧ s = sj :=
        ⟨congrArg Prod.fst hp, congrArg Prod.snd hp⟩
      have hempty : rest = [] := by
        rcases rest with _ | ⟨x, t⟩
        · rfl
        · rw [firstMinIdx] at hrest
          rcases h2 : firstMinIdx t with _ | p2
          · simp only [h2] at hrest
            exact Option.noConfusion hrest
          · rcases p2 with ⟨j2, s2⟩
            simp only [h2] at hrest
            by_cases hle : x ≤ s2
            · rw [if_pos hle] at hrest; exact Option.noConfusion hrest
            · rw [if_neg hle] at hrest; exact Option.noConfusion hrest
      subst hempty
      exact ⟨by simp, fun y hy => by
        rw [List.mem_singleton] at hy
        omega⟩
    · simp only [hrest] at h
      obtain ⟨hjr, hmin⟩ := ih jr sr hrest
      by_cases hle : s ≤ sr
      · rw [if_pos hle] at h
        have hp := Option.some.inj h
        obtain ⟨rfl, rfl⟩ : 0 = j ∧ s = sj :=
          ⟨congrArg Prod.fst hp, congrArg Prod.snd hp⟩
        refine ⟨by simp, fun y hy => ?_⟩
        rcases List.mem_cons.mp hy with rfl | hyr
        · exact Nat.le_refl _
        · exact Nat.le_trans hle (hmin y hyr)
      · rw [if_neg hle] at h
        have hp := Option.some.inj h
        obtain ⟨rfl, rfl⟩ : jr + 1 = j ∧ sr = sj :=
          ⟨congrArg Prod.fst hp, congrArg Prod.snd hp⟩
        refine ⟨by simpa using hjr, fun y hy => ?_⟩
        rcases List.mem_cons.mp hy with rfl | hyr
        · omega
        · exact hmin y hyr

theorem firstMinIdx_isSome (l : List Nat) (h : l ≠ []) :
    (firstMinIdx l).isSome := by
  rcases l with _ | ⟨s, rest⟩
  · exact absurd rfl h
  · rw [firstMinIdx]
    rcases hrest : firstMinIdx rest with _ | ⟨j, sj⟩
    · simp only [hrest]
      rfl
    · simp only [hrest]
      split <;> rfl

/-! ### Claim theorems -/

/-- C1: for any single row, evaluating an expression via scalar `resolve` on
that row's context and via batch `resolve_batch` with selection vector `{0}`
over a one-row batch context yields the identical value-or-fault in that
row's resolution slot. -/
theorem scalar_batch_agree_single_row (e : Expr) (st : Runtime)
    (r0 res : Resolved) (h : resolve e ⟨st⟩ = some res) :
    resolve_batch e ⟨[st], [r0]⟩ [0] = some ⟨[st], [res]⟩ := by
  obtain ⟨out, hcall, hlen, hmem, hfr⟩ := resolve_batch_pointwise e [st] [r0] [0]
    (by
      intro j hj
      rw [List.mem_singleton] at hj
      subst hj
      exact ⟨by simp, by simp⟩)
    (by
      intro j hj st' hst'
      rw [List.mem_singleton] at hj
      subst hj
      simp only [List.getElem?_cons_zero, Option.some.injEq] at hst'
      subst hst'
      rw [h]
      rfl)
  have h0 : out[0]? = some res := by
    have hm := hmem 0 (by simp) st (by simp)
    rw [h] at hm
    exact hm
  have hlen1 : out.length = 1 := by simpa using hlen
  have hout : out = [res] := by
    rcases out with _ | ⟨x, t⟩
    · simp at hlen1
    · rcases t with _ | ⟨y, u⟩
      · simp only [List.getElem?_cons_zero, Option.some.injEq] at h0
        rw [h0]
      · simp at hlen1
  rw [hout] at hcall
  exact hcall

/-- Witness for C1 at a concrete conditional over one row. -/
theorem scalar_batch_agree_single_row_witness :
    resolve_batch
      (.ifStatement (.var ⟨"x", none⟩) (.value (.integer 1))
        (some (.value (.integer 2))))
      ⟨[⟨[("x", .boolean true)]⟩], [.ok .null]⟩ [0]
    = some ⟨[⟨[("x", .boolean true)]⟩], [.ok (.integer 1)]⟩ :=
  scalar_batch_agree_single_row _ _ _ _ (by decide)

/-- C3: scalar `IfStatement::resolve` with a boolean-valued predicate
returns the consequent's result when the predicate resolves to true, the
alternative's result when it resolves to false and an alternative is
present, and the null value when it resolves to false and no alternative is
present. -/
theorem if_scalar_semantics (p c : Expr) (a : Option Expr) (alt : Expr)
    (ctx : Context) :
    (resolve p ctx = some (.ok (.boolean true)) →
      resolve (.ifStatement p c a) ctx = resolve c ctx) ∧
    (resolve p ctx = some (.ok (.boolean false)) →
      resolve (.ifStatement p c (some alt)) ctx = resolve alt ctx) ∧
    (resolve p ctx = some (.ok (.boolean false)) →
      resolve (.ifStatement p c none) ctx = some (.ok Value.null)) := by
  refine ⟨fun h => ?_, fun h => ?_, fun h => ?_⟩
  · rw [resolve, h]
  · rw [resolve, h, resolveAlt]
  · rw [resolve, h, resolveAlt]

/-- Witness for C3 at the spec's three example programs. -/
theorem if_scalar_semantics_witness :
    resolve (.ifStatement (.value (.boolean true)) (.value (.string "a"))
      (some (.value (.string "b")))) ⟨⟨[]⟩⟩
      = resolve (.value (.string "a")) ⟨⟨[]⟩⟩ ∧
    resolve (.ifStatement (.value (.boolean false)) (.value (.string "a"))
      (some (.value (.string "b")))) ⟨⟨[]⟩⟩
      = resolve (.value (.string "b")) ⟨⟨[]⟩⟩ ∧
    resolve (.ifStatement (.value (.boolean false)) (.value (.string "a"))
      none) ⟨⟨[]⟩⟩ = some (.ok Value.null) :=
  ⟨(if_scalar_semantics (.value (.boolean true)) (.value (.string "a"))
      (some (.value (.string "b"))) (.value (.string "b")) ⟨⟨[]⟩⟩).1 rfl,
   (if_scalar_semantics (.value (.boolean false)) (.value (.string "a"))
      (some (.value (.string "b"))) (.value (.string "b")) ⟨⟨[]⟩⟩).2.1 rfl,
   (if_scalar_semantics (.value (.boolean false)) (.value (.string "a"))
      none (.value (.string "b")) ⟨⟨[]⟩⟩).2.2 rfl⟩

/-- C4: variable resolution is infallible in both modes: scalar
`Variable::resolve` returns `Ok` of the bound value, `Ok(Null)` if unbound;
batch `resolve_batch` writes the same value-or-null as `Ok` into the
resolution slot of every selected index; neither ever produces a fault. -/
theorem variable_resolution_infallible (node : Variable) (ctx : Context)
    (states : List Runtime) (resolved : List Resolved) (sel : List Nat)
    (hb : ∀ j ∈ sel, j < states.length ∧ j < resolved.length) :
    resolve (.var node) ctx
      = some (.ok ((ctx.state.lookupVariable node.ident).getD .null)) ∧
    ∃ out, resolve_batch (.var node) ⟨states, resolved⟩ sel = some ⟨states, out⟩ ∧
      ∀ j ∈ sel, ∀ st, states[j]? = some st →
        out[j]? = some (.ok ((st.lookupVariable node.ident).getD .null)) := by
  obtain ⟨out, hcall, hlen, hmem, hfr⟩ := variableWriteLoop_spec node.ident
    states sel resolved hb
  refine ⟨by rw [resolve], out, ?_, hmem⟩
  simp only [resolve_batch, hcall]
  rfl

/-- Witness for C4: a bound and an unbound row. -/
theorem variable_resolution_infallible_witness :
    resolve (.var ⟨"x", none⟩) ⟨⟨[("x", .integer 7)]⟩⟩
      = some (.ok (((⟨[("x", .integer 7)]⟩ : Runtime).lookupVariable "x").getD .null)) ∧
    ∃ out, resolve_batch (.var ⟨"x", none⟩)
        ⟨[⟨[("x", .integer 7)]⟩, ⟨[]⟩], [.ok .null, .ok .null]⟩ [0, 1]
        = some ⟨[⟨[("x", .integer 7)]⟩, ⟨[]⟩], out⟩ ∧
      ∀ j ∈ [0, 1], ∀ st, [(⟨[("x", .integer 7)]⟩ : Runtime), ⟨[]⟩][j]? = some st →
        out[j]? = some (.ok ((st.lookupVariable "x").getD .null)) :=
  variable_resolution_infallible ⟨"x", none⟩ ⟨⟨[("x", .integer 7)]⟩⟩
    [⟨[("x", .integer 7)]⟩, ⟨[]⟩] [.ok .null, .ok .null] [0, 1] (by decide)

/-- C8: variable resolution never reads the constant snapshot captured at
construction: two `Variable` nodes with the same identifier but different
captured snapshot values produce identical results, scalar and batch, on
any identical context. -/
theorem variable_ignores_snapshot (ident : String) (v1 v2 : Option Value)
    (ctx : Context) (bctx : BatchContext) (sel : List Nat) :
    resolve (.var ⟨ident, v1⟩) ctx = resolve (.var ⟨ident, v2⟩) ctx ∧
    resolve_batch (.var ⟨ident, v1⟩) bctx sel
      = resolve_batch (.var ⟨ident, v2⟩) bctx sel :=
  ⟨rfl, rfl⟩

/-- C10: `Variable::resolve_batch` unconditionally overwrites the resolution
slot of every selected index with an `Ok` value: a slot that already held a
captured fault is replaced by `Ok(bound value or null)` rather than
preserved. -/
theorem variable_batch_overwrites_fault (node : Variable)
    (states : List Runtime) (resolved : List Resolved) (sel : List Nat)
    (i : Nat) (msg : String)
    (hb : ∀ j ∈ sel, j < states.length ∧ j < resolved.length)
    (hisel : i ∈ sel)
    (_hslot : resolved[i]? = some (.error msg)) :
    ∃ out st, resolve_batch (.var node) ⟨states, resolved⟩ sel
        = some ⟨states, out⟩ ∧
      states[i]? = some st ∧
      out[i]? = some (.ok ((st.lookupVariable node.ident).getD .null)) := by
  obtain ⟨out, hcall, hlen, hmem, hfr⟩ := variableWriteLoop_spec node.ident
    states sel resolved hb
  obtain ⟨his, _⟩ := hb i hisel
  refine ⟨out, states[i], ?_, List.getElem?_eq_getElem his,
    hmem i hisel _ (List.getElem?_eq_getElem his)⟩
  simp only [resolve_batch, hcall]
  rfl

/-- Splitting a list by three mutually exclusive, jointly exhaustive
boolean classifiers yields a permutation of the list. -/
theorem filter_tripartition (T F E : Nat → Bool) :
    ∀ (sel : List Nat),
    (∀ x ∈ sel, T x ∨ F x ∨ E x) →
    (∀ x, ¬(T x ∧ F x)) → (∀ x, ¬(T x ∧ E x)) → (∀ x, ¬(F x ∧ E x)) →
    (sel.filter T ++ sel.filter F ++ sel.filter E).Perm sel := by
  intro sel
  induction sel with
  | nil => intro _ _ _ _; simp
  | cons x rest ih =>
    intro hex hTF hTE hFE
    have hrest := ih (fun y hy => hex y (List.mem_cons_of_mem x hy)) hTF hTE hFE
    rcases hex x (List.mem_cons_self x rest) with hT | hF | hE
    · have hnF : F x = false := by
        rcases hFx : F x
        · rfl
        · exact absurd ⟨hT, hFx⟩ (hTF x)
      have hnE : E x = false := by
        rcases hEx : E x
        · rfl
        · exact absurd ⟨hT, hEx⟩ (hTE x)
      simp only [List.filter_cons, hT, hnF, hnE, if_pos, Bool.false_eq_true,
        if_false, List.cons_append]
      exact hrest.cons x
    · have hnT : T x = false := by
        rcases hTx : T x
        · rfl
        · exact absurd ⟨hTx, hF⟩ (hTF x)
      have hnE : E x = false := by
        rcases hEx : E x
        · rfl
        · exact absurd ⟨hF, hEx⟩ (hFE x)
      simp only [List.filter_cons, hF, hnT, hnE, if_pos, Bool.false_eq_true,
        if_false, List.cons_append]
      refine List.Perm.trans ?_ (hrest.cons x)
      have hmid : (rest.filter T ++ x :: rest.filter F).Perm
          (x :: (rest.filter T ++ rest.filter F)) := List.perm_middle
      exact hmid.append_right (rest.filter E)
    · have hnT : T x = false := by
        rcases hTx : T x
        · rfl
        · exact absurd ⟨hTx, hE⟩ (hTE x)
      have hnF : F x = false := by
        rcases hFx : F x
        · rfl
        · exact absurd ⟨hFx, hE⟩ (hFE x)
      simp only [List.filter_cons, hE, hnT, hnF, if_pos, Bool.false_eq_true,
        if_false]
      refine List.Perm.trans ?_ (hrest.cons x)
      exact List.perm_middle

/-- C2: after `IfStatement::resolve_batch` runs on any selection vector S,
every index in S has been routed into exactly one of: the consequent's
selection vector, the alternative's selection vector (whose rows are either
delegated to the alternative or directly written null), or left with its
recorded fault; the three sets are pairwise disjoint and their union is a
permutation of S. -/
theorem if_batch_partition_exhaustive (p c : Expr) (a : Option Expr)
    (ctx ctx' : BatchContext) (sel : List Nat)
    (hrun : resolve_batch (.ifStatement p c a) ctx sel = some ctx') :
    ∃ ctx1 selIf selElse,
      resolve_batch p ctx sel = some ctx1 ∧
      ifPartition ctx1.resolved_values sel = some (selIf, selElse) ∧
      (selIf ++ selElse ++ sel.filter (errQ ctx1.resolved_values)).Perm sel ∧
      (∀ j ∈ selIf, j ∉ selElse) ∧
      (∀ j ∈ selIf, ¬ errQ ctx1.resolved_values j) ∧
      (∀ j ∈ selElse, ¬ errQ ctx1.resolved_values j) := by
  rw [resolve_batch] at hrun
  split at hrun
  · exact Option.noConfusion hrun
  rename_i ctx1 hcall1
  split at hrun
  · exact Option.noConfusion hrun
  rename_i selIf selElse hpart
  obtain ⟨hpermIf, hpermElse, hcls⟩ :=
    ifPartition_spec ctx1.resolved_values sel selIf selElse hpart
  refine ⟨ctx1, selIf, selElse, hcall1, hpart, ?_, ?_, ?_, ?_⟩
  · have htri := filter_tripartition (trueQ ctx1.resolved_values)
      (falseQ ctx1.resolved_values) (errQ ctx1.resolved_values) sel hcls
      (fun x ⟨ht, hf⟩ => not_trueQ_and_falseQ ht hf)
      (fun x ⟨ht, he⟩ => not_okQ_and_errQ (trueQ_okQ ht) he)
      (fun x ⟨hf, he⟩ => not_okQ_and_errQ (falseQ_okQ hf) he)
    refine List.Perm.trans ?_ htri
    exact ((hpermIf.append hpermElse).append (List.Perm.refl _))
  · intro j hjIf hjElse
    have ht := (List.mem_filter.mp (hpermIf.mem_iff.mp hjIf)).2
    have hf := (List.mem_filter.mp (hpermElse.mem_iff.mp hjElse)).2
    exact not_trueQ_and_falseQ ht hf
  · intro j hjIf he
    have ht := (List.mem_filter.mp (hpermIf.mem_iff.mp hjIf)).2
    exact not_okQ_and_errQ (trueQ_okQ ht) he
  · intro j hjElse he
    have hf := (List.mem_filter.mp (hpermElse.mem_iff.mp hjElse)).2
    exact not_okQ_and_errQ (falseQ_okQ hf) he

/-- Witness for C2: a three-row batch with a true row, a false row and a
faulting row. -/
theorem if_batch_partition_exhaustive_witness :
    ∃ ctx1 selIf selElse,
      resolve_batch (.var ⟨"x", none⟩)
        ⟨[⟨[("x", .boolean true)]⟩, ⟨[("x", .boolean false)]⟩],
          [.ok .null, .ok .null]⟩ [0, 1] = some ctx1 ∧
      ifPartition ctx1.resolved_values [0, 1] = some (selIf, selElse) ∧
      (selIf ++ selElse ++ [0, 1].filter (errQ ctx1.resolved_values)).Perm [0, 1] ∧
      (∀ j ∈ selIf, j ∉ selElse) ∧
      (∀ j ∈ selIf, ¬ errQ ctx1.resolved_values j) ∧
      (∀ j ∈ selElse, ¬ errQ ctx1.resolved_values j) :=
  if_batch_partition_exhaustive (.var ⟨"x", none⟩) (.value (.integer 1)) none
    ⟨[⟨[("x", .boolean true)]⟩, ⟨[("x", .boolean false)]⟩],
      [.ok .null, .ok .null]⟩
    ⟨[⟨[("x", .boolean true)]⟩, ⟨[("x", .boolean false)]⟩],
      [.ok (.integer 1), .ok .null]⟩ [0, 1] (by decide)

/-- C5: during batch resolution of a conditional, a row whose predicate
faults keeps the recorded fault in its resolution slot, is excluded from
both the consequent's and the alternative's selections, and the resulting
slots of all other rows are the same as in a run whose selection omits the
faulting row. -/
theorem if_batch_fault_isolation (p c : Expr) (a : Option Expr)
    (states : List Runtime) (resolved : List Resolved) (sel : List Nat)
    (f : Nat) (st_f : Runtime) (msg : String)
    (hmemf : f ∈ sel)
    (hstf : states[f]? = some st_f)
    (hfault : resolve p ⟨st_f⟩ = some (.error msg))
    (hb : ∀ j ∈ sel, j < states.length ∧ j < resolved.length)
    (hok : ∀ j ∈ sel, ∀ st, states[j]? = some st →
      (resolve (.ifStatement p c a) ⟨st⟩).isSome) :
    ∃ out out' out1 selIf selElse,
      resolve_batch (.ifStatement p c a) ⟨states, resolved⟩ sel
        = some ⟨states, out⟩ ∧
      out[f]? = some (.error msg) ∧
      resolve_batch p ⟨states, resolved⟩ sel = some ⟨states, out1⟩ ∧
      ifPartition out1 sel = some (selIf, selElse) ∧
      f ∉ selIf ∧ f ∉ selElse ∧
      resolve_batch (.ifStatement p c a) ⟨states, resolved⟩ (sel.erase f)
        = some ⟨states, out'⟩ ∧
      (∀ j, j ≠ f → out'[j]? = out[j]?) := by
  have hokp : ∀ j ∈ sel, ∀ st, states[j]? = some st →
      (resolve p ⟨st⟩).isSome := by
    intro j hj st hst
    have hse := hok j hj st hst
    rcases hps : resolve p ⟨st⟩ with _ | r
    · rw [resolve, hps] at hse
      simp at hse
    · simp
  obtain ⟨out, hcall, hlen, hmem, hfr⟩ :=
    resolve_batch_pointwise (.ifStatement p c a) states resolved sel hb hok
  obtain ⟨out1, hcall1, hlen1, hmem1, hfr1⟩ :=
    resolve_batch_pointwise p states resolved sel hb hokp
  have hslotf : out1[f]? = some (.error msg) := by
    rw [hmem1 f hmemf st_f hstf, hfault]
  -- extract the partition from the completed run
  have hcall' := hcall
  simp only [resolve_batch, hcall1] at hcall'
  split at hcall'
  · exact Option.noConfusion hcall'
  rename_i selIf selElse hpart
  obtain ⟨hpermIf, hpermElse, _⟩ := ifPartition_spec out1 sel selIf selElse hpart
  have hfnIf : f ∉ selIf := by
    intro hfIf
    have ht := (List.mem_filter.mp (hpermIf.mem_iff.mp hfIf)).2
    exact not_okQ_and_errQ (trueQ_okQ ht) (errQ_iff.mpr ⟨msg, hslotf⟩)
  have hfnElse : f ∉ selElse := by
    intro hfElse
    have hfq := (List.mem_filter.mp (hpermElse.mem_iff.mp hfElse)).2
    exact not_okQ_and_errQ (falseQ_okQ hfq) (errQ_iff.mpr ⟨msg, hslotf⟩)
  -- the run without the faulting row
  obtain ⟨out', hcall'', hlen'', hmem'', hfr''⟩ :=
    resolve_batch_pointwise (.ifStatement p c a) states resolved (sel.erase f)
      (fun j hj => hb j (List.mem_of_mem_erase hj))
      (fun j hj => hok j (List.mem_of_mem_erase hj))
  refine ⟨out, out', out1, selIf, selElse, hcall, ?_, hcall1, hpart,
    hfnIf, hfnElse, hcall'', ?_⟩
  · rw [hmem f hmemf st_f hstf, resolve, hfault]
  · intro j hj
    by_cases hjs : j ∈ sel
    · have hje : j ∈ sel.erase f := (List.mem_erase_of_ne hj).mpr hjs
      obtain ⟨hjst, _⟩ := hb j hjs
      obtain ⟨st, hst⟩ : ∃ st, states[j]? = some st :=
        ⟨states[j], List.getElem?_eq_getElem hjst⟩
      rw [hmem'' j hje st hst, hmem j hjs st hst]
    · have hje : j ∉ sel.erase f := fun hje => hjs (List.mem_of_mem_erase hje)
      rw [hfr'' j hje, hfr j hjs]

/-- Witness for C5: two rows, the second row's predicate faults. -/
theorem if_batch_fault_isolation_witness :
    ∃ out out' out1 selIf selElse,
      resolve_batch
          (.ifStatement
            (.ifStatement (.var ⟨"x", none⟩) (.value (.boolean true))
              (some (.fault "boom")))
            (.value (.string "a")) (some (.value (.string "b"))))
          ⟨[⟨[("x", .boolean true)]⟩, ⟨[("x", .boolean false)]⟩],
            [.ok .null, .ok .null]⟩ [0, 1]
        = some ⟨[⟨[("x", .boolean true)]⟩, ⟨[("x", .boolean false)]⟩], out⟩ ∧
      out[1]? = some (.error "boom") ∧
      resolve_batch
          (.ifStatement (.var ⟨"x", none⟩) (.value (.boolean true))
            (some (.fault "boom")))
          ⟨[⟨[("x", .boolean true)]⟩, ⟨[("x", .boolean false)]⟩],
            [.ok .null, .ok .null]⟩ [0, 1]
        = some ⟨[⟨[("x", .boolean true)]⟩, ⟨[("x", .boolean false)]⟩], out1⟩ ∧
      ifPartition out1 [0, 1] = some (selIf, selElse) ∧
      1 ∉ selIf ∧ 1 ∉ selElse ∧
      resolve_batch
          (.ifStatement
            (.ifStatement (.var ⟨"x", none⟩) (.value (.boolean true))
              (some (.fault "boom")))
            (.value (.string "a")) (some (.value (.string "b"))))
          ⟨[⟨[("x", .boolean true)]⟩, ⟨[("x", .boolean false)]⟩],
            [.ok .null, .ok .null]⟩ ([0, 1].erase 1)
        = some ⟨[⟨[("x", .boolean true)]⟩, ⟨[("x", .boolean false)]⟩], out'⟩ ∧
      (∀ j, j ≠ 1 → out'[j]? = out[j]?) :=
  if_batch_fault_isolation
    (.ifStatement (.var ⟨"x", none⟩) (.value (.boolean true))
      (some (.fault "boom")))
    (.value (.string "a")) (some (.value (.string "b")))
    [⟨[("x", .boolean true)]⟩, ⟨[("x", .boolean false)]⟩]
    [.ok .null, .ok .null] [0, 1] 1 ⟨[("x", .boolean false)]⟩ "boom"
    (by decide) (by decide) (by decide) (by decide)
    (by
      intro j hj st hst
      rcases List.mem_cons.mp hj with rfl | hj1
      · simp only [List.getElem?_cons_zero, Option.some.injEq] at hst
        subst hst
        decide
      · rcases List.mem_cons.mp hj1 with rfl | hj2
        · simp only [List.getElem?_cons_succ, List.getElem?_cons_zero,
            Option.some.injEq] at hst
          subst hst
          decide
        · exact absurd hj2 (List.not_mem_nil j))

/-- Witness for C10: a pre-faulted slot is overwritten with `Ok`. -/
theorem variable_batch_overwrites_fault_witness :
    ∃ out st, resolve_batch (.var ⟨"x", none⟩)
        ⟨[⟨[("x", .integer 7)]⟩], [.error "boom"]⟩ [0]
        = some ⟨[⟨[("x", .integer 7)]⟩], out⟩ ∧
      [(⟨[("x", .integer 7)]⟩ : Runtime)][0]? = some st ∧
      out[0]? = some (.ok ((st.lookupVariable "x").getD .null)) :=
  variable_batch_overwrites_fault ⟨"x", none⟩ [⟨[("x", .integer 7)]⟩]
    [.error "boom"] [0] 0 "boom" (by decide) (by decide) (by decide)

/-- C9: the `Display` rendering of an `IfStatement` is the text
`if <predicate> <consequent>` when no alternative is present, and that text
followed by `" else"` directly followed by the rendered alternative when an
alternative is present. -/
theorem if_display_rendering (p c alt : Expr) :
    render (.ifStatement p c (some alt))
      = "if " ++ render p ++ " " ++ render c ++ " else" ++ render alt ∧
    render (.ifStatement p c none) = "if " ++ render p ++ " " ++ render c := by
  constructor
  · rw [render, renderAlt]
    simp [String.append_assoc]
  · rw [render, renderAlt]
    simp

/-- C6: `IfStatement::type_def` returns the deep merge (possibility-set
union) of the consequent's and the alternative's type descriptors when an
alternative is present, and the consequent's descriptor with an added null
possibility when none is present. -/
theorem if_type_def_union (p c alt : Expr) (state : LocalEnv × ExternalEnv)
    (k : Kind) :
    type_def (.ifStatement p c (some alt)) state
      = (type_def c state).merge_deep (type_def alt state) ∧
    type_def (.ifStatement p c none) state = (type_def c state).add_null ∧
    (k ∈ (type_def (.ifStatement p c (some alt)) state).kinds ↔
      k ∈ (type_def c state).kinds ∨ k ∈ (type_def alt state).kinds) ∧
    (k ∈ (type_def (.ifStatement p c none) state).kinds ↔
      k ∈ (type_def c state).kinds ∨ k = .null) := by
  refine ⟨by rw [type_def, type_defAlt], by rw [type_def, type_defAlt], ?_, ?_⟩
  · rw [type_def, type_defAlt]
    simp [TypeDef.merge_deep]
  · rw [type_def, type_defAlt]
    simp [TypeDef.add_null]

/-- C7: `Variable::new` fails exactly when the identifier is absent from
the local environment; the resulting error exposes the stable code 701 and
labels consisting of a primary label at the undefined reference plus a
context label whose suggestion is a minimum-Levenshtein-distance candidate
drawn from the environment's visible identifiers together with the
built-ins null, true and false — so a suggestion is always attached. -/
theorem variable_new_undefined_diagnostic (span : Span) (ident : String)
    (lenv : LocalEnv) :
    ((Variable.new span ident lenv).isOk ↔
      (lenv.lookupVariable ident).isSome) ∧
    (∀ e, Variable.new span ident lenv = .error e →
      e.code = 701 ∧
      ∃ guessed,
        guessed ∈ lenv.variable_idents ++ ["null", "true", "false"] ∧
        (∀ cand ∈ lenv.variable_idents ++ ["null", "true", "false"],
          distance ident.toList guessed.toList ≤
            distance ident.toList cand.toList) ∧
        e.labels = [Label.primary "undefined variable" span,
          Label.context ("did you mean \"" ++ guessed ++ "\"?") span]) := by
  rcases hlk : lenv.lookupVariable ident with _ | lvar
  · constructor
    · rw [Variable.new, hlk]
      simp [Except.isOk, Except.toBool]
    · intro e he
      rw [Variable.new, hlk] at he
      have he' : e = Error.undefined ident span lenv.variable_idents :=
        (Except.error.inj he).symm
      subst he'
      refine ⟨rfl, ?_⟩
      have hne : (lenv.variable_idents ++ ["null", "true", "false"]).map
          (fun possible => distance ident.toList possible.toList) ≠ [] := by
        simp
      obtain ⟨⟨idx, sc⟩, hmin⟩ :=
        Option.isSome_iff_exists.mp (firstMinIdx_isSome _ hne)
      obtain ⟨hidx, hminle⟩ := firstMinIdx_spec _ idx sc hmin
      rw [List.getElem?_map] at hidx
      rcases hcand : (lenv.variable_idents ++ ["null", "true", "false"])[idx]?
        with _ | guessed
      · rw [hcand] at hidx
        exact Option.noConfusion hidx
      · rw [hcand] at hidx
        have hsc : distance ident.toList guessed.toList = sc :=
          Option.some.inj hidx
        refine ⟨guessed, List.mem_iff_getElem?.mpr ⟨idx, hcand⟩, ?_, ?_⟩
        · intro cand hcandmem
          rw [hsc]
          exact hminle _ (List.mem_map_of_mem _ hcandmem)
        · simp only [Error.labels, Error.undefined, hmin, hcand]
  · constructor
    · rw [Variable.new, hlk]
      simp [Except.isOk, Except.toBool]
    · intro e he
      rw [Variable.new, hlk] at he
      exact Except.noConfusion he

/-- Witness for C7: `foo` against an environment containing `food`. -/
theorem variable_new_undefined_diagnostic_witness :
    (Error.undefined "foo" (0, 3)
        ((⟨[("food", ⟨⟨[.null], false⟩, none⟩)]⟩ : LocalEnv).variable_idents)).code
      = 701 ∧
    ∃ guessed,
      guessed ∈ (⟨[("food", ⟨⟨[.null], false⟩, none⟩)]⟩ : LocalEnv).variable_idents
        ++ ["null", "true", "false"] ∧
      (∀ cand ∈ (⟨[("food", ⟨⟨[.null], false⟩, none⟩)]⟩ : LocalEnv).variable_idents
          ++ ["null", "true", "false"],
        distance "foo".toList guessed.toList ≤ distance "foo".toList cand.toList) ∧
      (Error.undefined "foo" (0, 3)
          ((⟨[("food", ⟨⟨[.null], false⟩, none⟩)]⟩ : LocalEnv).variable_idents)).labels
        = [Label.primary "undefined variable" (0, 3),
           Label.context ("did you mean \"" ++ guessed ++ "\"?") (0, 3)] :=
  (variable_new_undefined_diagnostic (0, 3) "foo"
    ⟨[("food", ⟨⟨[.null], false⟩, none⟩)]⟩).2
    (Error.undefined "foo" (0, 3)
      ((⟨[("food", ⟨⟨[.null], false⟩, none⟩)]⟩ : LocalEnv).variable_idents)) rfl

end Vrl
